import Mathlib

/-!
Verification of the spend-aggregation pipeline of the UK MOD spend-analysis
dashboard (`dash.py`).  The dashboard's logic is straight-line data
transformation over a table of procurement records; we embed each stage as a
pure function over `List Record` with exact rational arithmetic:

* `filtered_df` — the category/area filter (dash.py lines 122-125);
* `noDataStop` — the empty-view guard (lines 128-130);
* `groupbySum` — `df.groupby(col)['Invoice Value (GBP)'].sum()` with its
  ascending key order;
* `supplier_spend`, `market_shares`, `hhi`, `hhiInterpretation` — the
  market-concentration computation (lines 232-249);
* `nlargest` — `Series.nlargest(n)` (stable descending selection);
* `heatmap_data` — `pivot_table(..., aggfunc='sum', fill_value=0)`
  (lines 328-334);
* `to_csv` / `parse_csv` — the CSV export of the filtered view (line 384),
  modelled at the cell level (a numeric cell is written bare, a text cell is
  quoted only when it needs quoting, mirroring minimal quoting).
-/

namespace SpendDash

/-- One procurement transaction, the four renamed columns of the loaded
spreadsheet (dash.py line 16). -/
structure Record where
  category : String
  area : String
  supplier : String
  value : ℚ
deriving DecidableEq, Repr

/-- The four column names assigned on load (dash.py line 16). -/
def renamedColumns : List String :=
  ["Expense Type (Category)", "Expense Area (User/BU)", "Supplier",
   "Invoice Value (GBP)"]

/-- Sum of the `Invoice Value (GBP)` column over a list of records. -/
def sumValues (l : List Record) : ℚ := (l.map Record.value).sum

/-- `df['Expense Type (Category)'].unique()` (dash.py lines 72-73). -/
def uniqueCategories (df : List Record) : List String :=
  (df.map Record.category).dedup

/-- `df['Expense Area (User/BU)'].unique()` (dash.py lines 107-108). -/
def uniqueAreas (df : List Record) : List String :=
  (df.map Record.area).dedup

/-- The filter stage (dash.py lines 122-125): rows whose category is in the
selected categories and whose area is in the selected areas. -/
def filtered_df (df : List Record)
    (selectedCategories selectedAreas : List String) : List Record :=
  df.filter fun r =>
    selectedCategories.contains r.category && selectedAreas.contains r.area

/-- The no-data guard (dash.py lines 128-130): the dashboard stops with an
error exactly when the filtered frame has no rows. -/
def noDataStop (f : List Record) : Bool := f.length == 0

/-- The group keys of `df.groupby(key)` — the distinct values of the key
column, in ascending order (pandas sorts group keys by default). -/
def groupKeys (df : List Record) (key : Record → String) : List String :=
  ((df.map key).dedup).insertionSort (· ≤ ·)

/-- `df.groupby(key)['Invoice Value (GBP)'].sum()`: each distinct key paired
with the sum of `value` over its rows. -/
def groupbySum (df : List Record) (key : Record → String) :
    List (String × ℚ) :=
  (groupKeys df key).map fun k => (k, sumValues (df.filter fun r => key r == k))

/-- `series.sum()` for a keyed series of totals. -/
def seriesTotal (sums : List (String × ℚ)) : ℚ := (sums.map Prod.snd).sum

/-- `filtered_df.groupby('Supplier')['Invoice Value (GBP)'].sum()`
(dash.py line 233). -/
def supplier_spend (df : List Record) : List (String × ℚ) :=
  groupbySum df Record.supplier

/-- `supplier_spend.sum()` — the grand total the market shares divide by
(dash.py line 234). -/
def grandTotal (df : List Record) : ℚ := seriesTotal (supplier_spend df)

/-- `market_shares = (supplier_spend / supplier_spend.sum()) * 100`
(dash.py line 234). -/
def market_shares (df : List Record) : List (String × ℚ) :=
  (supplier_spend df).map fun p => (p.1, p.2 / grandTotal df * 100)

/-- `hhi = (market_shares ** 2).sum()` (dash.py line 235). -/
def hhi (df : List Record) : ℚ :=
  ((market_shares df).map fun p => p.2 ^ 2).sum

/-- The three interpretation bands printed by the dashboard
(dash.py lines 238-249). -/
inductive MarketBand where
  | competitive
  | moderatelyConcentrated
  | highlyConcentrated
deriving DecidableEq, Repr

/-- The classification of an HHI score (dash.py lines 238-249):
`if hhi < 1500 ... elif hhi < 2500 ... else ...`. -/
def hhiInterpretation (score : ℚ) : MarketBand :=
  if score < 1500 then .competitive
  else if score < 2500 then .moderatelyConcentrated
  else .highlyConcentrated

/-- Descending-total order on keyed totals, the sort order of
`Series.nlargest`. -/
def descTotal (a b : String × ℚ) : Prop := b.2 ≤ a.2

instance : DecidableRel descTotal := fun a b =>
  inferInstanceAs (Decidable (b.2 ≤ a.2))

/-- `Series.nlargest(n)` (dash.py lines 52, 218): the first `n` entries of a
stable descending sort by total, so ties keep their original order
(pandas `keep='first'`). -/
def nlargest (sums : List (String × ℚ)) (n : ℕ) : List (String × ℚ) :=
  (sums.insertionSort descTotal).take n

/-- `filtered_df.groupby('Supplier')['Invoice Value (GBP)'].sum().nlargest(15)`
(dash.py line 218). -/
def top_suppliers (df : List Record) : List (String × ℚ) :=
  nlargest (supplier_spend df) 15

/-- `df.groupby('Expense Type (Category)')[...].sum().nlargest(n).index`
(dash.py line 52). -/
def top_categories (df : List Record) (n : ℕ) : List String :=
  (nlargest (groupbySum df Record.category) n).map Prod.fst

/-- Row labels of the pivot table: the distinct categories, ascending
(dash.py line 330). -/
def pivotRows (df : List Record) : List String :=
  groupKeys df Record.category

/-- Column labels of the pivot table: the distinct areas, ascending
(dash.py line 331). -/
def pivotCols (df : List Record) : List String :=
  groupKeys df Record.area

/-- One cell of `pivot_table(values='Invoice Value (GBP)', aggfunc='sum',
fill_value=0)`: the summed value over rows matching both labels, 0 when no
row matches. -/
def pivotCell (df : List Record) (c a : String) : ℚ :=
  sumValues (df.filter fun r => r.category == c && r.area == a)

/-- `heatmap_data` (dash.py lines 328-334): the dense category × area matrix
of summed values. -/
def heatmap_data (df : List Record) : List (List ℚ) :=
  (pivotRows df).map fun c => (pivotCols df).map fun a => pivotCell df c a

/-- A CSV cell: a text field or a bare numeric field. -/
inductive Cell where
  | text (s : String)
  | num (q : ℚ)
deriving DecidableEq, Repr

/-- Whether the writer quotes a cell: a text field is quoted exactly when it
contains a delimiter or a quote character (minimal quoting); a numeric field
is never quoted. -/
def Cell.quoted : Cell → Bool
  | .text s => s.contains ',' || s.contains '\"'
  | .num _ => false

/-- The header row written by `to_csv`: the four renamed column names. -/
def headerRow : List Cell := renamedColumns.map Cell.text

/-- The CSV row serializing one record: the three label columns as text
cells, the invoice value as a bare numeric cell. -/
def Record.toCsvRow (r : Record) : List Cell :=
  [.text r.category, .text r.area, .text r.supplier, .num r.value]

/-- `csv = filtered_df.to_csv(index=False)` (dash.py line 384): a header row
followed by one row per record, in the filtered frame's row order. -/
def to_csv (df : List Record) : List (List Cell) :=
  headerRow :: df.map Record.toCsvRow

/-- Parse one data row back into a record. -/
def parseCsvRow : List Cell → Option Record
  | [.text c, .text a, .text s, .num v] => some ⟨c, a, s, v⟩
  | _ => none

/-- Parse an exported CSV: check the header row, then parse every data
row; any malformed row fails the whole parse. -/
def parse_csv (rows : List (List Cell)) : Option (List Record) :=
  match rows with
  | [] => none
  | h :: body => if h = headerRow then body.mapM parseCsvRow else none

/-- The total spend of one supplier over a view — the per-key sum of
`groupbySum` at `Record.supplier`. -/
def supplierTotal (v : List Record) (s : String) : ℚ :=
  sumValues (v.filter fun r => r.supplier == s)

/-- A filtered view of four equal-value records from four distinct
suppliers: every market share is 25%, so the HHI lands exactly on the 2500
boundary. -/
def hhiBoundaryView : List Record :=
  [⟨"Cat", "Area", "S1", 1⟩, ⟨"Cat", "Area", "S2", 1⟩,
   ⟨"Cat", "Area", "S3", 1⟩, ⟨"Cat", "Area", "S4", 1⟩]

/-- A non-empty filtered view whose single record has value 0: its grand
total is 0 although the view is not empty. -/
def zeroValueView : List Record := [⟨"Cat", "Area", "Sup", 0⟩]

/-- A two-record view with two categories and two areas, so that the
cross combination of the first category with the second area is absent. -/
def pivotWitView : List Record :=
  [⟨"C1", "A1", "S", 1⟩, ⟨"C2", "A2", "S", 2⟩]

/-- A filtered view whose rows are in ascending value order. -/
def ascendingView : List Record :=
  [⟨"C", "A", "S", 1⟩, ⟨"C", "A", "S", 2⟩]

/-- A two-supplier view with unequal positive spend, used to instantiate
the concentration bounds. -/
def twoSupplierView : List Record :=
  [⟨"Cat", "Area", "SA", 1⟩, ⟨"Cat", "Area", "SB", 3⟩]

/-- A keyed series of totals with a tie, used to instantiate the top-N
selection. -/
def tieSeries : List (String × ℚ) := [("K1", 5), ("K2", 7), ("K3", 5)]

end SpendDash

namespace SpendDash

/-- Summing an indicator over a duplicate-free key list containing `a`
picks out the single value `v`. -/
lemma sum_map_indicator (keys : List String) (a : String) (v : ℚ)
    (hnd : keys.Nodup) (ha : a ∈ keys) :
    (keys.map fun k => if a = k then v else 0).sum = v := by
  induction keys with
  | nil => cases ha
  | cons k ks ih =>
    rcases List.nodup_cons.mp hnd with ⟨hk, hnd2⟩
    rcases List.mem_cons.mp ha with rfl | ha2
    · simp only [List.map_cons, List.sum_cons, if_pos rfl]
      have hz : (ks.map fun x => if a = x then v else 0)
          = ks.map fun _ => (0 : ℚ) :=
        List.map_congr_left fun x hx => if_neg fun h : a = x => hk (h ▸ hx)
      rw [hz]
      simp
    · have hne : a ≠ k := fun h => hk (h ▸ ha2)
      simp only [List.map_cons, List.sum_cons, if_neg hne, zero_add]
      exact ih hnd2 ha2

/-- Fiberwise decomposition of a sum of values: partitioning a list of
records by any key attribute over a duplicate-free covering key list
conserves the total. -/
lemma sum_groupParts (key : Record → String) (df : List Record) :
    ∀ keys : List String, keys.Nodup → (∀ r ∈ df, key r ∈ keys) →
      (keys.map fun k => sumValues (df.filter fun r => key r == k)).sum
        = sumValues df := by
  induction df with
  | nil => intro keys _ _; simp [sumValues]
  | cons r rs ih =>
    intro keys hnd hcov
    have hstep : ∀ k, sumValues ((r :: rs).filter fun x => key x == k)
        = (if key r = k then r.value else 0)
          + sumValues (rs.filter fun x => key x == k) := by
      intro k
      by_cases h : key r = k
      · simp [List.filter_cons, h, sumValues]
      · simp [List.filter_cons, h, sumValues]
    calc (keys.map fun k => sumValues ((r :: rs).filter fun x => key x == k)).sum
        = (keys.map fun k => (if key r = k then r.value else 0)
            + sumValues (rs.filter fun x => key x == k)).sum :=
          congrArg List.sum (List.map_congr_left fun k _ => hstep k)
      _ = (keys.map fun k => if key r = k then r.value else 0).sum
            + (keys.map fun k => sumValues (rs.filter fun x => key x == k)).sum :=
          List.sum_map_add
      _ = r.value + sumValues rs := by
          rw [sum_map_indicator keys (key r) r.value hnd
                (hcov r (List.mem_cons_self r rs)),
             ih keys hnd fun x hx => hcov x (List.mem_cons_of_mem r hx)]
      _ = sumValues (r :: rs) := by simp [sumValues]

/-- The group keys are duplicate-free. -/
lemma groupKeys_nodup (df : List Record) (key : Record → String) :
    (groupKeys df key).Nodup :=
  (List.perm_insertionSort _ _).nodup_iff.mpr (List.nodup_dedup _)

/-- Every record's key appears among the group keys. -/
lemma mem_groupKeys {df : List Record} (key : Record → String) {r : Record}
    (hr : r ∈ df) : key r ∈ groupKeys df key := by
  simp only [groupKeys, List.mem_insertionSort, List.mem_dedup]
  exact List.mem_map_of_mem key hr

/-- Summing a grouped series recovers the total of the underlying values. -/
lemma seriesTotal_groupbySum (df : List Record) (key : Record → String) :
    seriesTotal (groupbySum df key) = sumValues df := by
  unfold seriesTotal groupbySum
  rw [List.map_map]
  exact sum_groupParts key df (groupKeys df key) (groupKeys_nodup df key)
    fun r hr => mem_groupKeys key hr

/-- C2: conservation — over every filtered view, the category-group totals,
the area-group totals, and the supplier-group totals each sum to the total
of `value` over the view (exactly, in exact rational arithmetic). -/
theorem groupSums_conservation (v : List Record) :
    seriesTotal (groupbySum v Record.category) = sumValues v ∧
    seriesTotal (groupbySum v Record.area) = sumValues v ∧
    seriesTotal (groupbySum v Record.supplier) = sumValues v :=
  ⟨seriesTotal_groupbySum v Record.category,
   seriesTotal_groupbySum v Record.area,
   seriesTotal_groupbySum v Record.supplier⟩

/-- C4: the filter returns exactly the order-preserving subsequence whose
category is among the selected categories and whose area is among the
selected areas; with an empty selected set on either side it returns the
empty sequence.  (Purity is inherent: `filtered_df` is a function of its
arguments and leaves `df` untouched.) -/
theorem filtered_df_spec (df : List Record)
    (selectedCategories selectedAreas : List String) :
    List.Sublist (filtered_df df selectedCategories selectedAreas) df ∧
    (∀ r : Record, r ∈ filtered_df df selectedCategories selectedAreas ↔
      r ∈ df ∧ r.category ∈ selectedCategories ∧ r.area ∈ selectedAreas) ∧
    filtered_df df [] selectedAreas = [] ∧
    filtered_df df selectedCategories [] = [] := by
  refine ⟨List.filter_sublist df, fun r => ?_, ?_, ?_⟩
  · simp [filtered_df, List.mem_filter, and_assoc]
  · simp [filtered_df]
  · simp [filtered_df]

/-- C1 counterexample: on a view of four equal suppliers the HHI score is
exactly 2500, and the dashboard's `elif hhi < 2500` branch classifies it
highly concentrated — not moderately concentrated as the claim's inclusive
upper boundary requires. -/
theorem hhi_band_2500_counterexample :
    hhi hhiBoundaryView = 2500 ∧
    hhiInterpretation (hhi hhiBoundaryView) = MarketBand.highlyConcentrated ∧
    hhiInterpretation (hhi hhiBoundaryView)
      ≠ MarketBand.moderatelyConcentrated := by
  have h34 : (['S', '3'] : List Char) ≤ ['S', '4'] := by decide
  have h23 : (['S', '2'] : List Char) ≤ ['S', '3'] := by decide
  have h12 : (['S', '1'] : List Char) ≤ ['S', '2'] := by decide
  have hkeys : groupKeys hhiBoundaryView Record.supplier
      = ["S1", "S2", "S3", "S4"] := by
    simp [groupKeys, hhiBoundaryView, List.dedup, List.insertionSort,
      List.orderedInsert, h34, h23, h12]
  have hspend : supplier_spend hhiBoundaryView
      = [("S1", 1), ("S2", 1), ("S3", 1), ("S4", 1)] := by
    unfold supplier_spend groupbySum
    rw [hkeys]
    simp [hhiBoundaryView, sumValues, List.filter_cons]
  have hgt : grandTotal hhiBoundaryView = 4 := by
    rw [grandTotal, hspend]
    simp [seriesTotal]
    norm_num
  have heval : hhi hhiBoundaryView = 2500 := by
    rw [hhi, market_shares, hspend, hgt]
    norm_num
  refine ⟨heval, ?_, ?_⟩
  · rw [heval]
    norm_num [hhiInterpretation]
  · rw [heval]
    norm_num [hhiInterpretation]
    decide

/-- C1 amended: the HHI score is the stated sum of squared percentage
shares, and the classification bands of the code are `score < 1500` →
competitive, `1500 ≤ score < 2500` → moderately concentrated and
`2500 ≤ score` → highly concentrated: the 2500 boundary belongs to the
highly-concentrated band, not the moderate one. -/
theorem hhi_formula_and_bands (v : List Record) (score : ℚ) :
    hhi v = ((groupKeys v Record.supplier).map
        fun s => (100 * sumValues (v.filter fun r => r.supplier == s)
          / grandTotal v) ^ 2).sum ∧
    (score < 1500 ↔ hhiInterpretation score = MarketBand.competitive) ∧
    (1500 ≤ score ∧ score < 2500 ↔
      hhiInterpretation score = MarketBand.moderatelyConcentrated) ∧
    (2500 ≤ score ↔
      hhiInterpretation score = MarketBand.highlyConcentrated) := by
  refine ⟨?_, ?_⟩
  · unfold hhi market_shares supplier_spend groupbySum
    rw [List.map_map, List.map_map]
    refine congrArg List.sum (List.map_congr_left fun k _ => ?_)
    show (sumValues (v.filter fun r => r.supplier == k)
      / grandTotal v * 100) ^ 2 = _
    ring
  · unfold hhiInterpretation
    split_ifs with h1 h2
    · exact ⟨iff_of_true h1 rfl,
        iff_of_false (fun hc => absurd h1 (not_lt.mpr hc.1)) (by decide),
        iff_of_false (fun hc => by linarith) (by decide)⟩
    · exact ⟨iff_of_false h1 (by decide),
        iff_of_true ⟨not_lt.mp h1, h2⟩ rfl,
        iff_of_false (fun hc => absurd h2 (not_lt.mpr hc)) (by decide)⟩
    · exact ⟨iff_of_false h1 (by decide),
        iff_of_false (fun hc => absurd hc.2 h2) (by decide),
        iff_of_true (not_lt.mp h2) rfl⟩

/-- C3 counterexample: a non-empty view whose grand total is zero is not
stopped by the dashboard's guard, which checks only `len(filtered_df) == 0`;
the pipeline proceeds into the division by the zero grand total. -/
theorem zero_total_not_guarded_counterexample :
    grandTotal zeroValueView = 0 ∧ noDataStop zeroValueView = false := by
  constructor
  · simp [grandTotal, supplier_spend, groupbySum, groupKeys, seriesTotal,
      zeroValueView, sumValues, List.dedup, List.insertionSort,
      List.orderedInsert, List.filter_cons]
  · simp [noDataStop, zeroValueView]

/-- C3 amended: the concentration and KPI stages short-circuit with the
explicit no-data error exactly when the filtered view is empty (whose grand
total is indeed zero); a non-empty view with zero grand total is not
guarded. -/
theorem noDataStop_iff_empty (v : List Record) :
    (noDataStop v = true ↔ v = []) ∧ grandTotal ([] : List Record) = 0 := by
  constructor
  · simp [noDataStop, List.length_eq_zero]
  · simp [grandTotal, supplier_spend, groupbySum, groupKeys, seriesTotal,
      List.dedup, List.insertionSort]

/-- C6: the pivot table is a dense matrix over the view's distinct
categories × distinct areas; a category/area combination with no matching
record holds exactly 0, and the sum of all cells equals the sum of `value`
over the view. -/
theorem heatmap_pivot_spec (v : List Record) (c a : String)
    (habsent : v.filter (fun r => r.category == c && r.area == a) = []) :
    pivotCell v c a = 0 ∧
    ((heatmap_data v).map List.sum).sum = sumValues v ∧
    (heatmap_data v).length = (pivotRows v).length ∧
    (heatmap_data v).map List.length
      = List.replicate (pivotRows v).length (pivotCols v).length := by
  refine ⟨?_, ?_, ?_, ?_⟩
  · rw [pivotCell, habsent]
    rfl
  · unfold heatmap_data
    rw [List.map_map]
    have hrow : ∀ cc ∈ pivotRows v,
        (List.sum ∘ fun c2 => (pivotCols v).map fun a2 => pivotCell v c2 a2) cc
          = sumValues (v.filter fun r => r.category == cc) := by
      intro cc _
      have hcell : ∀ a2, pivotCell v cc a2
          = sumValues ((v.filter fun r => r.category == cc).filter
              fun r => r.area == a2) := by
        intro a2
        rw [pivotCell, List.filter_filter]
        exact congrArg sumValues (List.filter_congr fun r _ =>
          Bool.and_comm (r.category == cc) (r.area == a2))
      show ((pivotCols v).map fun a2 => pivotCell v cc a2).sum = _
      rw [List.map_congr_left fun a2 _ => hcell a2]
      exact sum_groupParts Record.area (v.filter fun r => r.category == cc)
        (pivotCols v) (groupKeys_nodup v Record.area)
        fun r hr => mem_groupKeys Record.area (List.mem_of_mem_filter hr)
    rw [List.map_congr_left hrow]
    exact sum_groupParts Record.category v (pivotRows v)
      (groupKeys_nodup v Record.category)
      fun r hr => mem_groupKeys Record.category hr
  · simp [heatmap_data]
  · simp [heatmap_data, List.map_map, Function.comp_def]

/-- Witness for C6 at a concrete view with an absent combination. -/
theorem heatmap_pivot_spec_witness :
    pivotCell pivotWitView "C1" "A2" = 0 ∧
    ((heatmap_data pivotWitView).map List.sum).sum = sumValues pivotWitView ∧
    (heatmap_data pivotWitView).length = (pivotRows pivotWitView).length ∧
    (heatmap_data pivotWitView).map List.length
      = List.replicate (pivotRows pivotWitView).length
          (pivotCols pivotWitView).length :=
  heatmap_pivot_spec pivotWitView "C1" "A2"
    (by simp [pivotWitView, List.filter_cons])

/-- C8 counterexample: `to_csv` serializes the filtered frame in its
original row order — here ascending in invoice value (1 before 2, and
`¬(2 ≤ 1)`) — so the export is not sorted by `Invoice Value (GBP)`
descending; only the displayed table (line 378) is sorted. -/
theorem to_csv_not_sorted_counterexample :
    to_csv ascendingView
      = [headerRow,
         [Cell.text "C", Cell.text "A", Cell.text "S", Cell.num 1],
         [Cell.text "C", Cell.text "A", Cell.text "S", Cell.num 2]] ∧
    ¬((2 : ℚ) ≤ 1) := by
  constructor
  · rfl
  · norm_num

/-- C8 amended: the CSV export has one row per record after a header row
that matches the four renamed column names, the numeric value cell of every
row is unquoted, and the rows appear in the filtered view's original order
(the dashboard sorts only the displayed table, not the export). -/
theorem to_csv_spec (v : List Record) :
    (to_csv v).length = v.length + 1 ∧
    (to_csv v).head? = some headerRow ∧
    headerRow = renamedColumns.map Cell.text ∧
    (to_csv v).drop 1 = v.map Record.toCsvRow ∧
    (∀ r : Record, Record.toCsvRow r
      = [Cell.text r.category, Cell.text r.area, Cell.text r.supplier,
         Cell.num r.value]) ∧
    ∀ q : ℚ, Cell.quoted (Cell.num q) = false := by
  refine ⟨by simp [to_csv], rfl, rfl, rfl, fun r => rfl, fun q => rfl⟩

/-- Parsing back each serialized row succeeds and returns the records
unchanged. -/
lemma mapM_parseCsvRow (v : List Record) :
    (v.map Record.toCsvRow).mapM parseCsvRow = some v := by
  rw [← List.mapM'_eq_mapM]
  induction v with
  | nil => rfl
  | cons r rs ih => simp [List.mapM', parseCsvRow, Record.toCsvRow, ih]

/-- C9: round-trip — parsing the exported CSV gives back exactly the
filtered view, so every re-aggregated total (grand total and the three
grouped families) is identical to the one computed before export. -/
theorem csv_roundtrip (v : List Record) :
    parse_csv (to_csv v) = some v ∧
    ∃ w, parse_csv (to_csv v) = some w ∧
      sumValues w = sumValues v ∧
      groupbySum w Record.category = groupbySum v Record.category ∧
      groupbySum w Record.area = groupbySum v Record.area ∧
      groupbySum w Record.supplier = groupbySum v Record.supplier := by
  have hp : parse_csv (to_csv v) = some v := by
    show (if headerRow = headerRow then (v.map Record.toCsvRow).mapM parseCsvRow
      else none) = some v
    rw [if_pos rfl]
    exact mapM_parseCsvRow v
  exact ⟨hp, v, hp, rfl, rfl, rfl, rfl⟩

/-- C10: filtering with the full sets of distinct categories and distinct
areas is the identity on the dataset — same records, same order. -/
theorem filtered_df_selectAll (df : List Record) :
    filtered_df df (uniqueCategories df) (uniqueAreas df) = df := by
  rw [filtered_df, List.filter_eq_self]
  intro r hr
  simp only [Bool.and_eq_true, List.elem_eq_mem, decide_eq_true_eq,
    uniqueCategories, uniqueAreas, List.mem_dedup]
  exact ⟨List.mem_map_of_mem Record.category hr,
         List.mem_map_of_mem Record.area hr⟩

end SpendDash

namespace SpendDash

/-- Values summed over a list of records with nonnegative values are
nonnegative. -/
lemma sumValues_nonneg {l : List Record} (h : ∀ r ∈ l, 0 ≤ r.value) :
    0 ≤ sumValues l :=
  List.sum_nonneg fun x hx => by
    obtain ⟨r, hr, rfl⟩ := List.mem_map.mp hx
    exact h r hr

/-- Core HHI inequality over an abstract finite key set: with nonnegative
totals summing to a positive grand total, the sum of squared percentage
shares lies in [10000/N, 10000], attaining 10000 exactly when a unique key
holds the whole total. -/
lemma hhi_core (K : Finset String) (f : String → ℚ) (T : ℚ)
    (hT : T = ∑ s ∈ K, f s) (hpos : 0 < T) (hfnn : ∀ s, 0 ≤ f s) :
    10000 / (K.card : ℚ) ≤ ∑ s ∈ K, (f s / T * 100) ^ 2 ∧
    (∑ s ∈ K, (f s / T * 100) ^ 2) ≤ 10000 ∧
    ((∑ s ∈ K, (f s / T * 100) ^ 2) = 10000 ↔ ∃! s, s ∈ K ∧ f s = T) := by
  have hTne : T ≠ 0 := ne_of_gt hpos
  have hgnn : ∀ s, 0 ≤ f s / T * 100 := fun s =>
    mul_nonneg (div_nonneg (hfnn s) hpos.le) (by norm_num)
  have hgsum : ∑ s ∈ K, f s / T * 100 = 100 := by
    rw [← Finset.sum_mul, ← Finset.sum_div, ← hT, div_self hTne, one_mul]
  have hg100 : ∀ s ∈ K, f s / T * 100 ≤ 100 := fun s hs =>
    le_trans (Finset.single_le_sum (fun t _ => hgnn t) hs) (le_of_eq hgsum)
  have hupper : (∑ s ∈ K, (f s / T * 100) ^ 2) ≤ 10000 := by
    calc ∑ s ∈ K, (f s / T * 100) ^ 2
        ≤ ∑ s ∈ K, 100 * (f s / T * 100) := by
          refine Finset.sum_le_sum fun s hs => ?_
          rw [sq]
          exact mul_le_mul_of_nonneg_right (hg100 s hs) (hgnn s)
      _ = 100 * ∑ s ∈ K, f s / T * 100 := by rw [Finset.mul_sum]
      _ = 10000 := by rw [hgsum]; norm_num
  have hKne : K.Nonempty := by
    rcases Finset.eq_empty_or_nonempty K with rfl | h
    · rw [Finset.sum_empty] at hT
      exact absurd hT hTne
    · exact h
  have hcardpos : (0 : ℚ) < (K.card : ℚ) := by
    exact_mod_cast Finset.card_pos.mpr hKne
  have hlower : 10000 / (K.card : ℚ) ≤ ∑ s ∈ K, (f s / T * 100) ^ 2 := by
    rw [div_le_iff₀ hcardpos]
    have hcs := sq_sum_le_card_mul_sum_sq (s := K) (f := fun s => f s / T * 100)
    rw [hgsum] at hcs
    calc (10000 : ℚ) = 100 ^ 2 := by norm_num
      _ ≤ (K.card : ℚ) * ∑ s ∈ K, (f s / T * 100) ^ 2 := hcs
      _ = (∑ s ∈ K, (f s / T * 100) ^ 2) * (K.card : ℚ) := mul_comm _ _
  refine ⟨hlower, hupper, ?_⟩
  constructor
  · intro heq
    have hex : ∃ s ∈ K, f s / T * 100 = 100 := by
      by_contra hno
      push_neg at hno
      have hlt : ∀ s ∈ K, f s / T * 100 < 100 := fun s hs =>
        lt_of_le_of_ne (hg100 s hs) (hno s hs)
      have hex0 : ∃ s ∈ K, f s / T * 100 ≠ 0 := by
        apply Finset.exists_ne_zero_of_sum_ne_zero
        rw [hgsum]
        norm_num
      obtain ⟨s0, hs0K, hs0ne⟩ := hex0
      have hs0pos : 0 < f s0 / T * 100 :=
        lt_of_le_of_ne (hgnn s0) (Ne.symm hs0ne)
      have hstrict : ∑ s ∈ K, (f s / T * 100) ^ 2
          < ∑ s ∈ K, 100 * (f s / T * 100) := by
        refine Finset.sum_lt_sum (fun s hs => ?_) ⟨s0, hs0K, ?_⟩
        · rw [sq]
          exact mul_le_mul_of_nonneg_right (hg100 s hs) (hgnn s)
        · rw [sq]
          exact mul_lt_mul_of_pos_right (hlt s0 hs0K) hs0pos
      rw [heq, ← Finset.mul_sum, hgsum] at hstrict
      norm_num at hstrict
    obtain ⟨s, hsK, hgs⟩ := hex
    have hfs : f s = T := by
      have h2 : f s / T = 1 := by linarith
      exact (div_eq_one_iff_eq hTne).mp h2
    refine ⟨s, ⟨hsK, hfs⟩, ?_⟩
    rintro t ⟨htK, hft⟩
    by_contra htne
    have hsub : ({t, s} : Finset String) ⊆ K := by
      intro x hx
      rcases Finset.mem_insert.mp hx with rfl | hx2
      · exact htK
      · rw [Finset.mem_singleton] at hx2
        rw [hx2]
        exact hsK
    have hpair : f t + f s ≤ ∑ x ∈ K, f x := by
      rw [← Finset.sum_pair htne]
      exact Finset.sum_le_sum_of_subset_of_nonneg hsub fun x _ _ => hfnn x
    rw [← hT, hft, hfs] at hpair
    linarith
  · rintro ⟨s, ⟨hsK, hfs⟩, _⟩
    have hsum := Finset.add_sum_erase K f hsK
    rw [← hT, hfs] at hsum
    have herase : ∑ t ∈ K.erase s, f t = 0 := by linarith
    have hft0 : ∀ t ∈ K.erase s, f t = 0 :=
      (Finset.sum_eq_zero_iff_of_nonneg fun t _ => hfnn t).mp herase
    rw [← Finset.add_sum_erase K _ hsK]
    have hz : ∑ t ∈ K.erase s, (f t / T * 100) ^ 2 = 0 :=
      Finset.sum_eq_zero fun t ht => by rw [hft0 t ht]; norm_num
    rw [hz, hfs, div_self hTne]
    norm_num

/-- The dashboard's HHI as a `Finset` sum of squared percentage shares over
the distinct suppliers. -/
lemma hhi_eq_finset_sum (v : List Record) :
    hhi v = ∑ s ∈ (groupKeys v Record.supplier).toFinset,
      (supplierTotal v s / grandTotal v * 100) ^ 2 := by
  rw [List.sum_toFinset _ (groupKeys_nodup v Record.supplier)]
  unfold hhi market_shares supplier_spend groupbySum
  rw [List.map_map, List.map_map]
  rfl

/-- The grand total as a `Finset` sum of the supplier totals. -/
lemma grandTotal_eq_finset_sum (v : List Record) :
    grandTotal v = ∑ s ∈ (groupKeys v Record.supplier).toFinset,
      supplierTotal v s := by
  rw [List.sum_toFinset _ (groupKeys_nodup v Record.supplier)]
  unfold grandTotal seriesTotal supplier_spend groupbySum
  rw [List.map_map]
  rfl

/-- C5: HHI bounds. -/
theorem hhi_bounds (v : List Record) (hpos : 0 < grandTotal v)
    (hnn : ∀ r ∈ v, 0 ≤ r.value) :
    10000 / ((groupKeys v Record.supplier).length : ℚ) ≤ hhi v ∧
    hhi v ≤ 10000 ∧
    (hhi v = 10000 ↔ ∃! s, s ∈ groupKeys v Record.supplier ∧
      supplierTotal v s = grandTotal v) := by
  have hfnn : ∀ s, 0 ≤ supplierTotal v s := fun s =>
    sumValues_nonneg fun r hr => hnn r (List.mem_of_mem_filter hr)
  have hcore := hhi_core (groupKeys v Record.supplier).toFinset
    (supplierTotal v) (grandTotal v) (grandTotal_eq_finset_sum v) hpos hfnn
  rw [← hhi_eq_finset_sum v] at hcore
  have hcard : (((groupKeys v Record.supplier).toFinset.card : ℚ))
      = ((groupKeys v Record.supplier).length : ℚ) := by
    rw [List.card_toFinset, (groupKeys_nodup v Record.supplier).dedup]
  rw [hcard] at hcore
  refine ⟨hcore.1, hcore.2.1, ?_⟩
  rw [hcore.2.2]
  exact existsUnique_congr fun s => by rw [List.mem_toFinset]

/-- Witness for C5. -/
theorem hhi_bounds_witness :
    (0 < grandTotal twoSupplierView ∧ ∀ r ∈ twoSupplierView, 0 ≤ r.value) ∧
    (10000 / ((groupKeys twoSupplierView Record.supplier).length : ℚ)
        ≤ hhi twoSupplierView ∧
     hhi twoSupplierView ≤ 10000 ∧
     (hhi twoSupplierView = 10000 ↔
       ∃! s, s ∈ groupKeys twoSupplierView Record.supplier ∧
         supplierTotal twoSupplierView s = grandTotal twoSupplierView)) := by
  have hAB : (['S','A'] : List Char) ≤ ['S','B'] := by decide
  have hkeys : groupKeys twoSupplierView Record.supplier = ["SA", "SB"] := by
    simp [groupKeys, twoSupplierView, List.dedup, List.insertionSort,
      List.orderedInsert, hAB]
  have hgt : grandTotal twoSupplierView = 4 := by
    unfold grandTotal seriesTotal supplier_spend groupbySum
    rw [hkeys]
    simp [twoSupplierView, sumValues, List.filter_cons]
    norm_num
  have hpos : 0 < grandTotal twoSupplierView := by
    rw [hgt]
    norm_num
  have hnn : ∀ r ∈ twoSupplierView, 0 ≤ r.value := by
    intro r hr
    simp only [twoSupplierView, List.mem_cons, List.not_mem_nil, or_false] at hr
    rcases hr with rfl | rfl <;> norm_num
  exact ⟨⟨hpos, hnn⟩, hhi_bounds twoSupplierView hpos hnn⟩

end SpendDash

namespace SpendDash

instance : IsTotal (String × ℚ) descTotal := ⟨fun a b => le_total b.2 a.2⟩

instance : IsTrans (String × ℚ) descTotal :=
  ⟨fun _ _ _ hab hbc => le_trans hbc hab⟩

/-- In a duplicate-free list, a pair sublist whose second component
survives a `take` is still a pair sublist of the `take`. -/
lemma pair_sublist_take {α : Type*} {l : List α} {p q : α} {n : ℕ}
    (hnd : l.Nodup) (hpq : List.Sublist [p, q] l) (hq : q ∈ l.take n) :
    List.Sublist [p, q] (l.take n) := by
  induction l generalizing n with
  | nil => simp at hq
  | cons x xs ih =>
    cases n with
    | zero => simp at hq
    | succ m =>
      rw [List.take_succ_cons] at hq ⊢
      rcases List.nodup_cons.mp hnd with ⟨hx, hnd2⟩
      cases hpq with
      | cons _ h =>
        have hqxs : q ∈ xs := h.subset (by simp)
        have hq2 : q ∈ xs.take m := by
          rcases List.mem_cons.mp hq with rfl | h2
          · exact absurd hqxs hx
          · exact h2
        exact (ih hnd2 h hq2).cons x
      | cons₂ _ h =>
        have hqxs : q ∈ xs := List.singleton_sublist.mp h
        have hq2 : q ∈ xs.take m := by
          rcases List.mem_cons.mp hq with rfl | h2
          · exact absurd hqxs hx
          · exact h2
        exact (List.singleton_sublist.mpr hq2).cons₂ _

/-- C7: top-N selection over a mapping of totals (duplicate-free keys):
the output has exactly `min n (len sums)` entries, its totals descend, a
tie keeps the original relative order of its entries (stability), and the
selection is idempotent at the same `n`. -/
theorem nlargest_spec (sums : List (String × ℚ)) (n : ℕ)
    (hkeys : (sums.map Prod.fst).Nodup) :
    (nlargest sums n).length = min n sums.length ∧
    (nlargest sums n).Pairwise descTotal ∧
    (∀ p q : String × ℚ, p.2 = q.2 → List.Sublist [p, q] sums →
      q ∈ nlargest sums n → List.Sublist [p, q] (nlargest sums n)) ∧
    nlargest (nlargest sums n) n = nlargest sums n := by
  have hsorted : (sums.insertionSort descTotal).Pairwise descTotal :=
    List.sorted_insertionSort descTotal sums
  have houtSorted : (nlargest sums n).Pairwise descTotal :=
    hsorted.sublist (List.take_sublist n _)
  refine ⟨?_, houtSorted, ?_, ?_⟩
  · simp [nlargest]
  · intro p q hpq hsub hq
    have hnd : sums.Nodup := hkeys.of_map
    have hsortnd : (sums.insertionSort descTotal).Nodup :=
      (List.perm_insertionSort _ _).nodup_iff.mpr hnd
    have hpair : List.Sublist [p, q] (sums.insertionSort descTotal) :=
      List.pair_sublist_insertionSort (le_of_eq hpq.symm) hsub
    exact pair_sublist_take hsortnd hpair hq
  · show ((nlargest sums n).insertionSort descTotal).take n = nlargest sums n
    rw [List.Sorted.insertionSort_eq houtSorted, nlargest, List.take_take,
      min_self]

/-- Witness for C7 at a concrete tied series. -/
theorem nlargest_spec_witness :
    (tieSeries.map Prod.fst).Nodup ∧
    (nlargest tieSeries 3).length = min 3 tieSeries.length ∧
    (nlargest tieSeries 3).Pairwise descTotal ∧
    List.Sublist [("K1", 5), ("K3", 5)] (nlargest tieSeries 3) ∧
    nlargest (nlargest tieSeries 3) 3 = nlargest tieSeries 3 := by
  have hkeys : (tieSeries.map Prod.fst).Nodup := by
    simp [tieSeries]
  have houtput : nlargest tieSeries 3
      = [("K2", 7), ("K1", 5), ("K3", 5)] := by
    norm_num [nlargest, tieSeries, List.insertionSort, List.orderedInsert,
      descTotal]
  have h := nlargest_spec tieSeries 3 hkeys
  refine ⟨hkeys, h.1, h.2.1, ?_, h.2.2.2⟩
  refine h.2.2.1 ("K1", 5) ("K3", 5) rfl ?_ ?_
  · exact List.Sublist.cons₂ _ (List.Sublist.cons _
      (List.Sublist.cons₂ _ List.Sublist.slnil))
  · rw [houtput]
    simp

end SpendDash
